import Mathlib

/-!
Verification of the storage layer of neo-js (src/dist/node/storage.js and
src/dist/node/storage/mongodb.js): block ingestion and chain linking,
transaction expansion, per-address per-asset balance computation,
block-range verification and block counting.

Embedding conventions: transaction values are rationals, block indices and
chain positions are integers.  Each asynchronous persistence call is
embedded through an explicit environment recording the data the call would
observe and whether it succeeds, and the settlement of a promise is
embedded by the type POutcome: resolved with a value, rejected with an
error, or left forever unsettled (neither callback ever fires).
-/

namespace Neo

/-- Errors produced by the storage layer or by the persistence collaborator. -/
inductive StorageErr where
  /-- reject(new Error("Could not find the transaction")) in getExpandedTX. -/
  | notFound
  /-- a failure reported by the persistence collaborator, with an opaque code. -/
  | dbFailure (code : Nat)
  deriving DecidableEq

/-- Settlement of a JS promise: resolved, rejected, or never settled at all
(the executor called neither resolve nor reject). -/
inductive POutcome (α : Type) where
  | resolved (a : α)
  | rejected (e : StorageErr)
  | pending
  deriving DecidableEq

/-- A value output of a transaction (storage.js reads address, asset, value). -/
structure Vout where
  address : String
  asset : String
  value : ℚ
  deriving DecidableEq

/-- A vin entry of a stored transaction.  A raw entry is a spend reference
(txid of the spent transaction plus output position); after expansion the
entry is the vout record copied from the output it spends, which is what
carries the asset field tested by lodash has(entry, "asset").  The last
case is the JS undefined produced when the expansion indexes r.vout out of
range. -/
inductive VinEntry where
  | ref (txid : String) (voutIndex : Nat)
  | expanded (v : Vout)
  | undefined
  deriving DecidableEq

/-- A stored transaction, restricted to the fields the verified code reads. -/
structure Tx where
  txid : String
  vin : List VinEntry
  vout : List Vout
  deriving DecidableEq

/-- lodash has(entry, "asset"): only an expanded entry carries an asset field. -/
def vinHasAsset : VinEntry → Bool
  | .expanded _ => true
  | _ => false

/-- lodash map(tx.vin, "txid") element: a raw reference yields its txid, an
expanded entry or an undefined entry yields JS undefined. -/
def vinTxid : VinEntry → Option String
  | .ref t _ => some t
  | _ => none

/-! ## Balance accumulation (storage.js getAssetBalance, lines 207-244)

The balancing section iterates the expanded transactions in order; per
transaction it first walks the vout list adding every matching value to the
running balance, then walks the vin list subtracting every matching value.
A vin entry that is still a raw reference (or undefined) has no address or
asset field, so the JS strict-equality test against the queried address
fails and no subtraction happens for it. -/

/-- One vout pass: balance += output.value whenever address and asset match. -/
def applyVouts (address asset : String) (balance : ℚ) (l : List Vout) : ℚ :=
  l.foldl (fun b o => if o.address = address ∧ o.asset = asset then b + o.value else b) balance

/-- One vin pass: balance -= input.value whenever address and asset match;
entries without those fields never match. -/
def applyVins (address asset : String) (balance : ℚ) (l : List VinEntry) : ℚ :=
  l.foldl (fun b i =>
    match i with
    | .expanded v => if v.address = address ∧ v.asset = asset then b - v.value else b
    | _ => b) balance

/-- The whole balancing fold of getAssetBalance over the fetched expanded
transactions, starting from the checkpoint balance. -/
def balanceOverTxs (address asset : String) (balance : ℚ) (txs : List Tx) : ℚ :=
  txs.foldl (fun b r => applyVins address asset (applyVouts address asset b r.vout) r.vin) balance

/-- Specification-side sum: total value of every vout whose address and asset
both match, over a list of transactions. -/
def matchingVoutSum (address asset : String) (txs : List Tx) : ℚ :=
  (txs.map (fun t =>
    (((t.vout.filter (fun o => decide (o.address = address ∧ o.asset = asset))).map
      Vout.value)).sum)).sum

/-- Whether a vin entry carries matching address and asset fields. -/
def vinMatches (address asset : String) : VinEntry → Bool
  | .expanded v => decide (v.address = address ∧ v.asset = asset)
  | _ => false

/-- Value carried by a vin entry (zero for entries without fields). -/
def vinValue : VinEntry → ℚ
  | .expanded v => v.value
  | _ => 0

/-- Specification-side sum: total value of every vin entry whose address and
asset both match, over a list of transactions. -/
def matchingVinSum (address asset : String) (txs : List Tx) : ℚ :=
  (txs.map (fun t => ((t.vin.filter (vinMatches address asset)).map vinValue).sum)).sum

lemma applyVouts_eq (address asset : String) (l : List Vout) :
    ∀ b : ℚ, applyVouts address asset b l =
      b + ((l.filter (fun o => decide (o.address = address ∧ o.asset = asset))).map
        Vout.value).sum := by
  induction l with
  | nil => intro b; simp [applyVouts]
  | cons o l ih =>
    intro b
    simp only [applyVouts, List.foldl_cons, List.filter_cons, decide_eq_true_eq]
    by_cases h : o.address = address ∧ o.asset = asset
    · rw [if_pos h, if_pos h,
        show List.foldl _ (b + o.value) l = applyVouts address asset (b + o.value) l from rfl,
        ih]
      simp; ring
    · rw [if_neg h, if_neg h,
        show List.foldl _ b l = applyVouts address asset b l from rfl, ih]

lemma applyVins_eq (address asset : String) (l : List VinEntry) :
    ∀ b : ℚ, applyVins address asset b l =
      b - ((l.filter (vinMatches address asset)).map vinValue).sum := by
  induction l with
  | nil => intro b; simp [applyVins]
  | cons i l ih =>
    intro b
    match i with
    | .ref t k =>
      simp only [applyVins, List.foldl_cons, List.filter_cons]
      rw [show List.foldl _ b l = applyVins address asset b l from rfl, ih]
      simp [vinMatches]
    | .undefined =>
      simp only [applyVins, List.foldl_cons, List.filter_cons]
      rw [show List.foldl _ b l = applyVins address asset b l from rfl, ih]
      simp [vinMatches]
    | .expanded v =>
      simp only [applyVins, List.foldl_cons, List.filter_cons, vinMatches, decide_eq_true_eq]
      by_cases h : v.address = address ∧ v.asset = asset
      · rw [if_pos h, if_pos h,
          show List.foldl _ (b - v.value) l = applyVins address asset (b - v.value) l from rfl,
          ih]
        simp [vinValue]; ring
      · rw [if_neg h, if_neg h,
          show List.foldl _ b l = applyVins address asset b l from rfl, ih]

lemma balanceOverTxs_eq (address asset : String) (txs : List Tx) :
    ∀ b : ℚ, balanceOverTxs address asset b txs =
      b + matchingVoutSum address asset txs - matchingVinSum address asset txs := by
  induction txs with
  | nil => intro b; simp [balanceOverTxs, matchingVoutSum, matchingVinSum]
  | cons r txs ih =>
    intro b
    simp only [balanceOverTxs, List.foldl_cons]
    rw [show List.foldl _ _ txs = balanceOverTxs address asset
          (applyVins address asset (applyVouts address asset b r.vout) r.vin) txs from rfl,
      ih, applyVins_eq, applyVouts_eq]
    simp [matchingVoutSum, matchingVinSum]
    ring

/-- Claim C5: for every address, asset, starting checkpoint and list of
matching expanded transactions, the recomputed balance equals the starting
balance plus the sum of every matching vout value minus the sum of every
matching vin value; with starting balance 0 (full history) it equals the
difference of the two sums. -/
theorem claim_C5 (address asset : String) (startingBalance : ℚ) (txs : List Tx) :
    balanceOverTxs address asset startingBalance txs =
      startingBalance + matchingVoutSum address asset txs - matchingVinSum address asset txs ∧
    balanceOverTxs address asset 0 txs =
      matchingVoutSum address asset txs - matchingVinSum address asset txs := by
  refine ⟨balanceOverTxs_eq address asset txs startingBalance, ?_⟩
  rw [balanceOverTxs_eq]
  ring

/-! ## Balance cache engine (storage.js getBalance, lines 99-159)

getBalance loads the account record; a missing record is created empty with
type "c" and the call retries itself with default arguments.  The known
asset entries are partitioned by the staleness test
(this.index - asset.index) >= blockAge; when the account entry count
differs from the cached registry entry count, every registry asset absent
from the account is appended to the stale part as an entry with index -1
and balance 0.  Each stale entry is recomputed by getAssetBalance from its
checkpoint; the resolved value is the fresh part concatenated with the
recomputed entries. -/

/-- A per-asset entry of an account record: asset id, cached balance, and the
block index through which the balance is accurate. -/
structure AssetBalanceEntry where
  asset : String
  balance : ℚ
  index : ℤ
  deriving DecidableEq

/-- An account record as stored by the persistence collaborator. -/
structure AccountRecord where
  address : String
  type : String
  assets : List AssetBalanceEntry
  deriving DecidableEq

/-- The value getBalance resolves with. -/
structure BalanceResult where
  address : String
  assets : List AssetBalanceEntry
  deriving DecidableEq

/-- Environment observed by one getBalance call: the account record returned
by dataAccess.getAddress (none when the address is new), the cached asset
registry (this.assets, flattened to the asset ids the code reads), the
chain position this.index, and the expanded transactions the recomputation
query dataAccess.getAssetListByAddress followed by getExpandedTX yields for
a given address, asset and start block (success path). -/
structure BalanceEnv where
  account : Option AccountRecord
  registryAssets : List String
  currentIndex : ℤ
  txQuery : String → String → ℤ → List Tx

/-- Resolved value of getAssetBalance(address, asset, startBlock, balance):
the balancing fold over the queried expanded transactions, cached back with
index = this.index (storage.js line 229). -/
def getAssetBalanceEntry (env : BalanceEnv) (address asset : String)
    (startBlock : ℤ) (balance : ℚ) : AssetBalanceEntry :=
  ⟨asset, balanceOverTxs address asset balance (env.txQuery address asset startBlock),
    env.currentIndex⟩

/-- Body of getBalance once an account record is present (storage.js lines
119-151).  The wantedAssets parameter mirrors the assets parameter of the
source function; the body never reads it (only res.assets and this.assets
are consulted). -/
def getBalanceCore (env : BalanceEnv) (address : String) (wantedAssets : List String)
    (blockAge : ℤ) (acct : AccountRecord) : BalanceResult :=
  let parts := acct.assets.partition (fun a => decide (env.currentIndex - a.index ≥ blockAge))
  let stale :=
    if acct.assets.length ≠ env.registryAssets.length then
      let included := acct.assets.map AssetBalanceEntry.asset
      parts.1 ++ (env.registryAssets.filter (fun a => decide (a ∉ included))).map
        (fun a => ⟨a, 0, -1⟩)
    else parts.1
  ⟨address, parts.2 ++
    stale.map (fun a => getAssetBalanceEntry env address a.asset (a.index + 1) a.balance)⟩

/-- getBalance(address, assets = this.assets, blockAge = 1).  When getAddress
finds no record, the code saves the empty record with type "c" and retries
this.getBalance(address) with default arguments; the retried getAddress
finds the record just saved. -/
def getBalance (env : BalanceEnv) (address : String) (wantedAssets : List String)
    (blockAge : ℤ) : BalanceResult :=
  match env.account with
  | none => getBalanceCore env address env.registryAssets 1 ⟨address, "c", []⟩
  | some acct => getBalanceCore env address wantedAssets blockAge acct

/-- Concrete environment for the staleness example of claim C6: chain position
100, two registry assets, and a recomputation query returning no further
transactions. -/
def envC6 : BalanceEnv :=
  ⟨some ⟨"addr1", "c", [⟨"gas", 7, 95⟩, ⟨"neo", 3, 89⟩]⟩, ["gas", "neo"], 100,
    fun _ _ _ => []⟩

/-- Account record for the staleness example: one entry checkpointed at block
95 and one at block 89. -/
def acctC6 : AccountRecord := ⟨"addr1", "c", [⟨"gas", 7, 95⟩, ⟨"neo", 3, 89⟩]⟩

/-- Claim C6: getBalance partitions the account's asset entries by
currentIndex - entry.index < blockAge; every fresh entry is returned
unchanged and every stale entry is recomputed from its checkpoint; with
currentIndex = 100 and blockAge = 10, the entry at index 95 comes back
unchanged and the entry at index 89 comes back recomputed (recached at
index 100). -/
theorem claim_C6 :
    (∀ (env : BalanceEnv) (address : String) (wantedAssets : List String) (blockAge : ℤ)
        (acct : AccountRecord) (e : AssetBalanceEntry), e ∈ acct.assets →
        env.currentIndex - e.index < blockAge →
        e ∈ (getBalanceCore env address wantedAssets blockAge acct).assets) ∧
    (∀ (env : BalanceEnv) (address : String) (wantedAssets : List String) (blockAge : ℤ)
        (acct : AccountRecord) (e : AssetBalanceEntry), e ∈ acct.assets →
        blockAge ≤ env.currentIndex - e.index →
        getAssetBalanceEntry env address e.asset (e.index + 1) e.balance
          ∈ (getBalanceCore env address wantedAssets blockAge acct).assets) ∧
    (getBalanceCore envC6 "addr1" envC6.registryAssets 10 acctC6).assets
      = [⟨"gas", 7, 95⟩, ⟨"neo", 3, 100⟩] := by
  refine ⟨?_, ?_, by decide⟩
  · intro env address wantedAssets blockAge acct e he hfresh
    simp only [getBalanceCore, List.partition_eq_filter_filter]
    apply List.mem_append_left
    simp only [List.mem_filter, Function.comp_apply, Bool.not_eq_true', decide_eq_false_iff_not]
    exact ⟨he, by omega⟩
  · intro env address wantedAssets blockAge acct e he hstale
    simp only [getBalanceCore, List.partition_eq_filter_filter]
    apply List.mem_append_right
    apply List.mem_map_of_mem
    by_cases hlen : acct.assets.length ≠ env.registryAssets.length
    · simp only [if_pos hlen]
      apply List.mem_append_left
      simp only [List.mem_filter, decide_eq_true_eq]
      exact ⟨he, by omega⟩
    · simp only [if_neg hlen]
      simp only [List.mem_filter, decide_eq_true_eq]
      exact ⟨he, by omega⟩

/-- Concrete witness input for claim C6: an entry checkpointed at index 95
with chain position 100 and blockAge 10 is fresh and comes back unchanged. -/
theorem claim_C6_witness :
    (⟨"gas", 7, 95⟩ : AssetBalanceEntry) ∈ acctC6.assets ∧
    envC6.currentIndex - (95 : ℤ) < 10 ∧
    (⟨"gas", 7, 95⟩ : AssetBalanceEntry)
      ∈ (getBalanceCore envC6 "addr1" envC6.registryAssets 10 acctC6).assets :=
  ⟨by decide, by decide,
    claim_C6.1 envC6 "addr1" envC6.registryAssets 10 acctC6 ⟨"gas", 7, 95⟩
      (by decide) (by decide)⟩

/-- Concrete environment exhibiting the behavior of getBalance on wanted
assets: the account holds entries for alpha and beta, the registry lists
alpha and gamma, so the entry counts coincide and the missing-asset scan is
skipped; no recomputation query returns further transactions. -/
def envC7 : BalanceEnv :=
  ⟨some ⟨"addr2", "c", [⟨"alpha", 1, 0⟩, ⟨"beta", 2, 0⟩]⟩, ["alpha", "gamma"], 5,
    fun _ _ _ => []⟩

/-- Claim C7 is contradicted by the code: the assets parameter of getBalance
is never read, and an asset missing from the account record is only picked
up when the account entry count differs from the registry entry count.
Here getBalance is called with wantedAssets containing alpha and gamma:
gamma, which has no account entry, receives no balance at all, while beta,
which was not requested, is returned.  The call with wantedAssets = only
alpha likewise returns both alpha and beta. -/
theorem claim_C7_eval :
    ((getBalance envC7 "addr2" ["alpha", "gamma"] 1).assets.map AssetBalanceEntry.asset
      = ["alpha", "beta"]) ∧
    ("gamma" ∉ (getBalance envC7 "addr2" ["alpha", "gamma"] 1).assets.map
      AssetBalanceEntry.asset) ∧
    ((getBalance envC7 "addr2" ["alpha"] 1).assets.map AssetBalanceEntry.asset
      = ["alpha", "beta"]) := by
  decide

/-- Claim C10: for a previously-unseen address the empty account record is
created and the call retries with default arguments only; the
caller-supplied wantedAssets and blockAge are discarded, so the result
equals a getBalance call on the now-existing empty record with the full
registry and blockAge 1. -/
theorem claim_C10 (env : BalanceEnv) (address : String) (wantedAssets : List String)
    (blockAge : ℤ) (h : env.account = none) :
    getBalance env address wantedAssets blockAge
      = getBalance { env with account := some ⟨address, "c", []⟩ } address
          env.registryAssets 1 := by
  cases env with
  | mk account registryAssets currentIndex txQuery =>
    cases h
    rfl

/-- Concrete environment for the claim C10 witness: a new address. -/
def envC10 : BalanceEnv := ⟨none, ["gas"], 3, fun _ _ _ => []⟩

/-- Witness for claim C10 at a concrete new address with non-default
arguments. -/
theorem claim_C10_witness :
    envC10.account = none ∧
    getBalance envC10 "addr3" ["neo"] 7
      = getBalance { envC10 with account := some ⟨"addr3", "c", []⟩ } "addr3"
          envC10.registryAssets 1 :=
  ⟨rfl, claim_C10 envC10 "addr3" ["neo"] 7 rfl⟩

/-! ## Block ingestion and linking (storage.js saveBlock, lines 421-467)

After dataAccess.saveBlock succeeds, the transactions are stamped and
handed to dataAccess.saveTransaction inside a Promise.all; the mapped
callbacks have a braced body without a return, so the aggregate resolves
over an array of undefined values no matter how the individual saves fare,
and the catch handler that would reject the ingest is unreachable.  The
chain position is then advanced: a block index above the current index is
pushed onto unlinkedBlocks and the loop repeatedly removes index + 1 from
unlinkedBlocks, incrementing index and blockHeight, until it is absent. -/

/-- A block as handed to saveBlock, restricted to the fields the chain
position update reads (index) plus the stamped fields. -/
structure Block where
  index : ℤ
  time : ℤ
  tx : List Tx
  deriving DecidableEq

/-- Chain position state of the Storage instance: index, blockHeight and the
unlinked (persisted but not yet linked) block indices. -/
structure ChainState where
  index : ℤ
  blockHeight : ℤ
  unlinkedBlocks : List ℤ
  deriving DecidableEq

/-- Constructor state: index -1, blockHeight 0, no unlinked blocks. -/
def initialChain : ChainState := ⟨-1, 0, []⟩

/-- The while-true linking loop of saveBlock: as long as index + 1 occurs in
unlinkedBlocks, splice out its first occurrence and increment index and
blockHeight.  The fuel counts loop iterations; each iteration that recurses
has removed one element, so fuel equal to the length of unlinkedBlocks is
enough: when it runs out the list is empty and the loop test would have
failed anyway. -/
def linkLoop : Nat → ChainState → ChainState
  | 0, s => s
  | Nat.succ fuel, s =>
    if (s.index + 1) ∈ s.unlinkedBlocks then
      linkLoop fuel ⟨s.index + 1, s.blockHeight + 1, s.unlinkedBlocks.erase (s.index + 1)⟩
    else s

/-- Chain position update of saveBlock for an ingested block index: indices
not above the current index leave the state alone, otherwise the index is
pushed onto unlinkedBlocks and the linking loop runs. -/
def saveBlockLink (s : ChainState) (blockIndex : ℤ) : ChainState :=
  if s.index < blockIndex then
    let pushed := s.unlinkedBlocks ++ [blockIndex]
    linkLoop pushed.length ⟨s.index, s.blockHeight, pushed⟩
  else s

/-- Environment for one saveBlock call: whether dataAccess.saveBlock succeeds
and whether dataAccess.saveTransaction succeeds for a given txid. -/
structure IngestEnv where
  saveBlockOk : Bool
  saveTxOk : String → Bool

/-- saveBlock: a failing block save rejects and leaves the chain position
alone.  A successful block save stamps and saves the transactions, but the
mapped Promise.all callbacks return undefined rather than the save
promises, so their outcomes (env.saveTxOk) are never consulted: the
aggregate resolves and the chain position is advanced regardless. -/
def storageSaveBlock (env : IngestEnv) (s : ChainState) (b : Block) :
    POutcome Unit × ChainState :=
  if env.saveBlockOk then
    let txSaveResults := b.tx.map (fun t => env.saveTxOk t.txid)
    have _ := txSaveResults
    (.resolved (), saveBlockLink s b.index)
  else (.rejected (.dbFailure 0), s)

/-- Invariant tying the chain position to the list A of block indices
ingested so far: blockHeight tracks index + 1, unlinkedBlocks holds exactly
the ingested indices above index without duplicates, every index from 0
through index has been ingested, and index + 1 has not. -/
def chainInv (A : List ℤ) (s : ChainState) : Prop :=
  -1 ≤ s.index ∧ s.blockHeight = s.index + 1 ∧ s.unlinkedBlocks.Nodup ∧
  (∀ x : ℤ, x ∈ s.unlinkedBlocks ↔ (x ∈ A ∧ s.index < x)) ∧
  (∀ k : ℤ, 0 ≤ k → k ≤ s.index → k ∈ A) ∧
  s.index + 1 ∉ A

lemma linkLoop_inv (fuel : Nat) :
    ∀ (idx bh : ℤ) (ub : List ℤ) (A : List ℤ), ub.length ≤ fuel →
    -1 ≤ idx → bh = idx + 1 → ub.Nodup →
    (∀ x : ℤ, x ∈ ub ↔ (x ∈ A ∧ idx < x)) →
    (∀ k : ℤ, 0 ≤ k → k ≤ idx → k ∈ A) →
    chainInv A (linkLoop fuel ⟨idx, bh, ub⟩) := by
  induction fuel with
  | zero =>
    intro idx bh ub A hlen hidx hbh hnd hmem hcontig
    have hnil : ub = [] := List.eq_nil_of_length_eq_zero (by omega)
    refine ⟨hidx, hbh, hnd, hmem, hcontig, ?_⟩
    intro hin
    have := (hmem (idx + 1)).2 ⟨hin, by omega⟩
    rw [hnil] at this
    exact absurd this (List.not_mem_nil _)
  | succ fuel ih =>
    intro idx bh ub A hlen hidx hbh hnd hmem hcontig
    by_cases hin : (idx + 1) ∈ ub
    · have hred : linkLoop (fuel + 1) ⟨idx, bh, ub⟩
          = linkLoop fuel ⟨idx + 1, bh + 1, ub.erase (idx + 1)⟩ := by
        rw [linkLoop]
        exact if_pos hin
      rw [hred]
      apply ih
      · have := List.length_erase_of_mem hin
        rw [this]
        have : 0 < ub.length := List.length_pos_of_mem hin
        omega
      · omega
      · omega
      · exact hnd.erase _
      · intro x
        rw [hnd.mem_erase_iff]
        constructor
        · rintro ⟨hne, hx⟩
          rcases (hmem x).1 hx with ⟨hxA, hlt⟩
          exact ⟨hxA, by omega⟩
        · rintro ⟨hxA, hlt⟩
          exact ⟨by omega, (hmem x).2 ⟨hxA, by omega⟩⟩
      · intro k hk0 hk
        rcases lt_or_eq_of_le hk with hk' | hk'
        · exact hcontig k hk0 (by omega)
        · exact ((hmem k).1 (by rw [hk']; exact hin)).1
    · have hred : linkLoop (fuel + 1) ⟨idx, bh, ub⟩ = ⟨idx, bh, ub⟩ := by
        rw [linkLoop]
        exact if_neg hin
      rw [hred]
      refine ⟨hidx, hbh, hnd, hmem, hcontig, ?_⟩
      intro hA
      exact hin ((hmem (idx + 1)).2 ⟨hA, by omega⟩)

lemma saveBlockLink_inv {A : List ℤ} {s : ChainState} (hInv : chainInv A s)
    {i : ℤ} (hi : 0 ≤ i) (hnew : i ∉ A) : chainInv (A ++ [i]) (saveBlockLink s i) := by
  obtain ⟨hidx, hbh, hnd, hmem, hcontig, htop⟩ := hInv
  have hgt : s.index < i := by
    by_contra hle
    exact hnew (hcontig i hi (by omega))
  have hred : saveBlockLink s i
      = linkLoop (s.unlinkedBlocks ++ [i]).length
          ⟨s.index, s.blockHeight, s.unlinkedBlocks ++ [i]⟩ := by
    rw [saveBlockLink]
    exact if_pos hgt
  rw [hred]
  apply linkLoop_inv
  · exact le_refl _
  · exact hidx
  · exact hbh
  · rw [List.nodup_append]
    refine ⟨hnd, List.nodup_singleton i, ?_⟩
    intro x hx hx'
    rcases (hmem x).1 hx with ⟨hxA, _⟩
    rcases List.mem_singleton.1 hx' with rfl
    exact hnew hxA
  · intro x
    rw [List.mem_append, List.mem_singleton, List.mem_append, List.mem_singleton]
    constructor
    · rintro (hx | rfl)
      · rcases (hmem x).1 hx with ⟨hxA, hlt⟩
        exact ⟨Or.inl hxA, hlt⟩
      · exact ⟨Or.inr rfl, hgt⟩
    · rintro ⟨hx | rfl, hlt⟩
      · exact Or.inl ((hmem x).2 ⟨hx, hlt⟩)
      · exact Or.inr rfl
  · intro k hk0 hk
    exact List.mem_append_left _ (hcontig k hk0 hk)

lemma foldl_saveBlockLink_inv :
    ∀ (q A : List ℤ) (s : ChainState), chainInv A s → q.Nodup →
    (∀ x ∈ q, 0 ≤ x) → (∀ x ∈ q, x ∉ A) →
    chainInv (A ++ q) (q.foldl saveBlockLink s) := by
  intro q
  induction q with
  | nil => intro A s hInv _ _ _; simpa using hInv
  | cons i q ih =>
    intro A s hInv hnd hpos hdisj
    have hstep : chainInv (A ++ [i]) (saveBlockLink s i) :=
      saveBlockLink_inv hInv (hpos i (List.mem_cons_self i q)) (hdisj i (List.mem_cons_self i q))
    have := ih (A ++ [i]) (saveBlockLink s i) hstep (List.nodup_cons.1 hnd).2
      (fun x hx => hpos x (List.mem_cons_of_mem i hx))
      (fun x hx => by
        rw [List.mem_append, List.mem_singleton]
        rintro (hxA | rfl)
        · exact hdisj x (List.mem_cons_of_mem i hx) hxA
        · exact (List.nodup_cons.1 hnd).1 hx)
    simpa [List.append_assoc] using this

lemma chainInv_initial : chainInv [] initialChain := by
  refine ⟨by norm_num [initialChain], by norm_num [initialChain], ?_, ?_, ?_, ?_⟩
  · simp [initialChain]
  · intro x; simp [initialChain]
  · intro k hk0 hk; simp [initialChain] at hk; omega
  · simp [initialChain]

lemma mem_rangeCast {n : ℕ} {x : ℤ} :
    x ∈ (List.range (n + 1)).map (fun k : ℕ => (k : ℤ)) ↔ 0 ≤ x ∧ x ≤ (n : ℤ) := by
  constructor
  · intro hx
    rcases List.mem_map.1 hx with ⟨k, hk, rfl⟩
    rw [List.mem_range] at hk
    omega
  · rintro ⟨h0, hn⟩
    exact List.mem_map.2 ⟨x.toNat, List.mem_range.2 (by omega), by omega⟩

/-- Claim C1: for every sequence of successfully persisted blocks whose
indices are a permutation of 0..N, starting from the constructor state,
after all N + 1 ingests the chain index is N and unlinkedBlocks is empty;
and after every prefix of the sequence the index is at least -1, every
block 0..index has been ingested and block index + 1 has not (so index is
the largest n with blocks 0..n all ingested). -/
theorem claim_C1 (env : IngestEnv) (N : ℕ) (blocks : List Block)
    (henv : env.saveBlockOk = true)
    (hperm : (blocks.map Block.index).Perm ((List.range (N + 1)).map (fun k : ℕ => (k : ℤ)))) :
    ((blocks.foldl (fun s b => (storageSaveBlock env s b).2) initialChain).index = (N : ℤ) ∧
     (blocks.foldl (fun s b => (storageSaveBlock env s b).2) initialChain).unlinkedBlocks
       = []) ∧
    (∀ p q : List Block, blocks = p ++ q →
      -1 ≤ (p.foldl (fun s b => (storageSaveBlock env s b).2) initialChain).index ∧
      (∀ k : ℤ, 0 ≤ k →
        k ≤ (p.foldl (fun s b => (storageSaveBlock env s b).2) initialChain).index →
        ∃ b ∈ p, b.index = k) ∧
      ¬ ∃ b ∈ p,
        b.index = (p.foldl (fun s b => (storageSaveBlock env s b).2) initialChain).index + 1) := by
  have hstep : ∀ (s : ChainState) (b : Block),
      (storageSaveBlock env s b).2 = saveBlockLink s b.index := by
    intro s b
    simp [storageSaveBlock, henv]
  have hfun : (fun (s : ChainState) (b : Block) => (storageSaveBlock env s b).2)
      = (fun (s : ChainState) (b : Block) => saveBlockLink s b.index) := by
    funext s b
    exact hstep s b
  have hfold : ∀ bs : List Block,
      bs.foldl (fun s b => (storageSaveBlock env s b).2) initialChain
        = (bs.map Block.index).foldl saveBlockLink initialChain := by
    intro bs
    rw [hfun, List.foldl_map]
  have hinv : ∀ bs : List Block, (bs.map Block.index).Nodup →
      (∀ x ∈ bs.map Block.index, 0 ≤ x) →
      chainInv (bs.map Block.index)
        (bs.foldl (fun s b => (storageSaveBlock env s b).2) initialChain) := by
    intro bs hnd hpos
    rw [hfold]
    simpa using foldl_saveBlockLink_inv (bs.map Block.index) [] initialChain
      chainInv_initial hnd hpos (by simp)
  have hrangeNd : ((List.range (N + 1)).map (fun k : ℕ => (k : ℤ))).Nodup := by
    apply List.Nodup.map
    · intro a b h
      simpa using h
    · exact List.nodup_range _
  have hndAll : (blocks.map Block.index).Nodup := hperm.nodup_iff.2 hrangeNd
  have hmemAll : ∀ x ∈ blocks.map Block.index, 0 ≤ x := by
    intro x hx
    exact (mem_rangeCast.1 (hperm.mem_iff.1 hx)).1
  constructor
  · obtain ⟨hidx, _, _, hmem, hcontig, htop⟩ := hinv blocks hndAll hmemAll
    have hiff : ∀ x : ℤ, x ∈ blocks.map Block.index ↔ 0 ≤ x ∧ x ≤ (N : ℤ) := by
      intro x
      rw [hperm.mem_iff, mem_rangeCast]
    set s := blocks.foldl (fun s b => (storageSaveBlock env s b).2) initialChain with hs
    have hNin : s.index = (N : ℤ) := by
      have h1 : s.index + 1 ∉ blocks.map Block.index := htop
      have h2 : ¬ (0 ≤ s.index + 1 ∧ s.index + 1 ≤ (N : ℤ)) := fun hc => h1 ((hiff _).2 hc)
      have h3 : s.index ≤ (N : ℤ) := by
        by_contra hgt
        have : (N : ℤ) + 1 ∈ blocks.map Block.index :=
          hcontig ((N : ℤ) + 1) (by omega) (by omega)
        have := (hiff _).1 this
        omega
      omega
    refine ⟨hNin, ?_⟩
    rw [List.eq_nil_iff_forall_not_mem]
    intro x hx
    rcases (hmem x).1 hx with ⟨hxb, hlt⟩
    have := (hiff x).1 hxb
    omega
  · intro p q hpq
    have hpnd : (p.map Block.index).Nodup := by
      have : blocks.map Block.index = p.map Block.index ++ q.map Block.index := by
        rw [hpq, List.map_append]
      rw [this] at hndAll
      exact (List.nodup_append.1 hndAll).1
    have hppos : ∀ x ∈ p.map Block.index, 0 ≤ x := by
      intro x hx
      apply hmemAll
      rw [hpq, List.map_append]
      exact List.mem_append_left _ hx
    obtain ⟨hidx, _, _, _, hcontig, htop⟩ := hinv p hpnd hppos
    refine ⟨hidx, ?_, ?_⟩
    · intro k hk0 hk
      have := hcontig k hk0 hk
      simpa [List.mem_map, eq_comm] using this
    · intro hc
      apply htop
      simpa [List.mem_map, eq_comm] using hc

/-- Witness blocks for claim C1: indices arrive in the order 0, 2, 1. -/
def blocksC1 : List Block := [⟨0, 10, []⟩, ⟨2, 30, []⟩, ⟨1, 20, []⟩]

/-- Environment for the claim C1 witness: every persistence call succeeds. -/
def envC1 : IngestEnv := ⟨true, fun _ => true⟩

/-- Witness for claim C1: ingesting indices 0, 2, 1 ends with index 2 and no
unlinked blocks. -/
theorem claim_C1_witness :
    envC1.saveBlockOk = true ∧
    (blocksC1.map Block.index).Perm ((List.range (2 + 1)).map (fun k : ℕ => (k : ℤ))) ∧
    (blocksC1.foldl (fun s b => (storageSaveBlock envC1 s b).2) initialChain).index = (2 : ℤ) ∧
    (blocksC1.foldl (fun s b => (storageSaveBlock envC1 s b).2) initialChain).unlinkedBlocks
      = [] :=
  ⟨rfl, by decide,
    (claim_C1 envC1 2 blocksC1 rfl (by decide)).1.1,
    (claim_C1 envC1 2 blocksC1 rfl (by decide)).1.2⟩

/-- Block and environment exhibiting the transaction-save divergence of
saveBlock: the block save succeeds, every transaction save fails. -/
def blockC2 : Block := ⟨5, 50, [⟨"t1", [], []⟩]⟩

/-- Ingest environment where dataAccess.saveTransaction always fails. -/
def envC2 : IngestEnv := ⟨true, fun _ => false⟩

/-- Ingest environment where dataAccess.saveBlock itself fails. -/
def envC2b : IngestEnv := ⟨false, fun _ => true⟩

/-- Claim C2 is contradicted by the code on transaction-save failures: the
mapped Promise.all callbacks do not return the saveTransaction promises, so
with every transaction save failing the ingest still resolves and the chain
position still advances (index 4 to 5); only a failure of the block save
itself rejects and leaves the chain position unchanged. -/
theorem claim_C2_eval :
    ((storageSaveBlock envC2 ⟨4, 5, []⟩ blockC2).1 = POutcome.resolved () ∧
     (storageSaveBlock envC2 ⟨4, 5, []⟩ blockC2).2.index = 5 ∧
     (storageSaveBlock envC2 ⟨4, 5, []⟩ blockC2).2.index ≠ (4 : ℤ)) ∧
    ((storageSaveBlock envC2b ⟨4, 5, []⟩ blockC2).1 = POutcome.rejected (.dbFailure 0) ∧
     (storageSaveBlock envC2b ⟨4, 5, []⟩ blockC2).2 = ⟨4, 5, []⟩) := by
  decide

/-! ## Integrity verifier (mongodb.js verifyBlocks, lines 494-520)

The scan streams the stored blocks with index in the requested range,
ordered by index, and walks a pointer starting at start - 1.  For each
observed document the inner while loop increments the pointer, breaking
when it reaches the document index and recording every index passed over
as missing.  The loop leaves the inner while exactly when the pointer
reaches the document index, so for a document index d above the pointer p
the loop performs d - p iterations; that count is the fuel below.  A
document index at or below the pointer would loop forever in the source;
it is unreachable because the stream is sorted and indices are unique. -/

/-- Inner while loop of verifyBlocks: pointer++ each pass; stop when the
document index d is reached, otherwise record the pointer as missing. -/
def gapLoop : Nat → ℤ → ℤ → List ℤ → List ℤ × ℤ
  | 0, p, _, m => (m, p)
  | Nat.succ fuel, p, d, m =>
    if d = p + 1 then (m, p + 1) else gapLoop fuel (p + 1) d (m ++ [p + 1])

/-- Handling of one streamed document index d given the accumulated missing
list and pointer. -/
def scanStep (acc : List ℤ × ℤ) (d : ℤ) : List ℤ × ℤ :=
  gapLoop (d - acc.2).toNat acc.2 d acc.1

/-- verifyBlocks(start, end): scan the stored block indices within the range,
ordered ascending, starting the pointer at start - 1, and return the
collected missing indices. -/
def verifyBlocks (stored : List ℤ) (start endIndex : ℤ) : List ℤ :=
  ((List.insertionSort (fun a b : ℤ => a ≤ b)
      (stored.filter (fun i => decide (start ≤ i ∧ i ≤ endIndex)))).foldl
    scanStep ([], start - 1)).1

lemma gapLoop_spec : ∀ (n : Nat) (p d : ℤ) (m : List ℤ), d = p + (n : ℤ) → 1 ≤ n →
    (gapLoop n p d m).2 = d ∧
    ∀ x : ℤ, x ∈ (gapLoop n p d m).1 ↔ (x ∈ m ∨ (p < x ∧ x < d)) := by
  intro n
  induction n with
  | zero => intro p d m _ h1; omega
  | succ n ih =>
    intro p d m hd _
    by_cases hn : n = 0
    · subst hn
      have hred : gapLoop 1 p d m = (m, p + 1) := by
        rw [gapLoop]
        exact if_pos (by omega)
      rw [hred]
      refine ⟨by omega, ?_⟩
      intro x
      constructor
      · intro hx
        exact Or.inl hx
      · rintro (hx | ⟨h1, h2⟩)
        · exact hx
        · omega
    · have hne : ¬ d = p + 1 := by omega
      have hred : gapLoop (n + 1) p d m = gapLoop n (p + 1) d (m ++ [p + 1]) := by
        rw [gapLoop]
        exact if_neg hne
      rw [hred]
      obtain ⟨h2, hmem⟩ := ih (p + 1) d (m ++ [p + 1]) (by omega) (by omega)
      refine ⟨h2, ?_⟩
      intro x
      rw [hmem x, List.mem_append, List.mem_singleton]
      constructor
      · rintro ((hx | rfl) | ⟨h1, h2'⟩)
        · exact Or.inl hx
        · exact Or.inr ⟨by omega, by omega⟩
        · exact Or.inr ⟨by omega, h2'⟩
      · rintro (hx | ⟨h1, h2'⟩)
        · exact Or.inl (Or.inl hx)
        · by_cases hxp : x = p + 1
          · exact Or.inl (Or.inr hxp)
          · exact Or.inr ⟨by omega, h2'⟩

lemma scan_mem : ∀ (L m : List ℤ) (p : ℤ), List.Sorted (· < ·) L →
    (∀ y ∈ L, p < y) →
    ∀ x : ℤ, x ∈ (L.foldl scanStep (m, p)).1 ↔
      (x ∈ m ∨ (p < x ∧ x ∉ L ∧ ∃ y ∈ L, x < y)) := by
  intro L
  induction L with
  | nil => intro m p _ _ x; simp
  | cons d L ih =>
    intro m p hsort hgt x
    have hpd : p < d := hgt d (List.mem_cons_self d L)
    have hn : 1 ≤ (d - p).toNat := by omega
    have hdp : d = p + (((d - p).toNat : ℕ) : ℤ) := by omega
    obtain ⟨h2, hmem⟩ := gapLoop_spec (d - p).toNat p d m hdp hn
    rcases hgl : gapLoop (d - p).toNat p d m with ⟨m', p'⟩
    rw [hgl] at h2 hmem
    dsimp only at h2 hmem
    subst p'
    have hsplit : scanStep (m, p) d = (m', d) := by
      rw [show scanStep (m, p) d = gapLoop (d - p).toNat p d m from rfl, hgl]
    rw [List.foldl_cons, hsplit]
    have hsort' : List.Sorted (· < ·) L := (List.sorted_cons.1 hsort).2
    have hgt' : ∀ y ∈ L, d < y := (List.sorted_cons.1 hsort).1
    rw [ih _ d hsort' hgt' x, hmem x]
    constructor
    · rintro ((hx | ⟨h1, hlt⟩) | ⟨h1, hnot, y, hy, hxy⟩)
      · exact Or.inl hx
      · refine Or.inr ⟨h1, ?_, d, List.mem_cons_self d L, hlt⟩
        intro hxL
        rcases List.mem_cons.1 hxL with heq | hxL'
        · omega
        · exact absurd (hgt' x hxL') (by omega)
      · refine Or.inr ⟨by omega, ?_, y, List.mem_cons_of_mem d hy, hxy⟩
        intro hxL
        rcases List.mem_cons.1 hxL with heq | hxL'
        · omega
        · exact hnot hxL'
    · rintro (hx | ⟨h1, hnotin, y, hy, hxy⟩)
      · exact Or.inl (Or.inl hx)
      · by_cases hxd : x < d
        · exact Or.inl (Or.inr ⟨h1, hxd⟩)
        · have hxne : x ≠ d := fun h => hnotin (h ▸ List.mem_cons_self d L)
          rcases List.mem_cons.1 hy with heq | hyL
          · omega
          · exact Or.inr ⟨by omega,
              fun h => hnotin (List.mem_cons_of_mem d h), y, hyL, hxy⟩

/-- Claim C8: over any duplicate-free set of stored block indices,
verifyBlocks(start, end) returns exactly the indices x in the range that
are absent from storage while some stored index within the range lies
strictly above x (so nothing past the last observed stored block is
reported); over stored indices 0, 1, 3, 4, 5 the call verifyBlocks(0, 5)
returns exactly the list containing 2. -/
theorem claim_C8 :
    (∀ (stored : List ℤ) (start endIndex : ℤ), stored.Nodup →
      ∀ x : ℤ, x ∈ verifyBlocks stored start endIndex ↔
        (start ≤ x ∧ x ∉ stored ∧ ∃ y ∈ stored, start ≤ y ∧ y ≤ endIndex ∧ x < y)) ∧
    verifyBlocks [0, 1, 3, 4, 5] 0 5 = [2] := by
  constructor
  · intro stored start endIndex hnd x
    have hperm : (List.insertionSort (fun a b : ℤ => a ≤ b)
        (stored.filter (fun i => decide (start ≤ i ∧ i ≤ endIndex)))).Perm
        (stored.filter (fun i => decide (start ≤ i ∧ i ≤ endIndex))) :=
      List.perm_insertionSort _ _
    have hndL : (List.insertionSort (fun a b : ℤ => a ≤ b)
        (stored.filter (fun i => decide (start ≤ i ∧ i ≤ endIndex)))).Nodup :=
      hperm.nodup_iff.2 (hnd.filter _)
    have hsorted : List.Sorted (· < ·) (List.insertionSort (fun a b : ℤ => a ≤ b)
        (stored.filter (fun i => decide (start ≤ i ∧ i ≤ endIndex)))) :=
      (List.sorted_insertionSort _ _).lt_of_le hndL
    have hmemL : ∀ z : ℤ, z ∈ List.insertionSort (fun a b : ℤ => a ≤ b)
        (stored.filter (fun i => decide (start ≤ i ∧ i ≤ endIndex)))
        ↔ (z ∈ stored ∧ start ≤ z ∧ z ≤ endIndex) := by
      intro z
      rw [hperm.mem_iff, List.mem_filter]
      simp only [decide_eq_true_eq]
    have hgt : ∀ y ∈ List.insertionSort (fun a b : ℤ => a ≤ b)
        (stored.filter (fun i => decide (start ≤ i ∧ i ≤ endIndex))), start - 1 < y := by
      intro y hy
      have := (hmemL y).1 hy
      omega
    rw [show verifyBlocks stored start endIndex
        = ((List.insertionSort (fun a b : ℤ => a ≤ b)
            (stored.filter (fun i => decide (start ≤ i ∧ i ≤ endIndex)))).foldl
          scanStep ([], start - 1)).1 from rfl]
    rw [scan_mem _ [] (start - 1) hsorted hgt x]
    simp only [List.not_mem_nil, false_or]
    constructor
    · rintro ⟨h1, hnotinL, y, hyL, hxy⟩
      obtain ⟨hys, hy1, hy2⟩ := (hmemL y).1 hyL
      refine ⟨by omega, ?_, y, hys, hy1, hy2, hxy⟩
      intro hxstored
      exact hnotinL ((hmemL x).2 ⟨hxstored, by omega, by omega⟩)
    · rintro ⟨h1, hxnot, y, hys, hy1, hy2, hxy⟩
      refine ⟨by omega, ?_, y, (hmemL y).2 ⟨hys, hy1, hy2⟩, hxy⟩
      intro hxL
      exact hxnot ((hmemL x).1 hxL).1
  · decide

/-- Witness for claim C8: over stored indices 0, 1, 3, 4, 5 the index 2 is
reported missing by verifyBlocks(0, 5), and the full result is the list
containing exactly 2. -/
theorem claim_C8_witness :
    (2 : ℤ) ∈ verifyBlocks [0, 1, 3, 4, 5] 0 5 ∧
    verifyBlocks [0, 1, 3, 4, 5] 0 5 = [2] :=
  ⟨(claim_C8.1 [0, 1, 3, 4, 5] 0 5 (by decide) 2).mpr (by decide), claim_C8.2⟩

/-! ## Block count (mongodb.js getBlockCount, lines 197-215, and storage.js
getBlockCount, lines 375-389)

The backend fetches the stored block with the highest index and returns
that index plus one; when no block is stored the placeholder index -1 makes
the result 0.  The Storage wrapper then sets this.index to the result minus
one and this.blockHeight to the result. -/

/-- The document with the greatest index among the stored block indices
(findOne sorted by index descending): none when nothing is stored. -/
def highestStored : List ℤ → Option ℤ
  | [] => none
  | i :: rest =>
    match highestStored rest with
    | none => some i
    | some m => some (max i m)

/-- getBlockCount of the backend: highest stored block index plus one, with
the placeholder index -1 when no block is stored. -/
def getBlockCountModel (stored : List ℤ) : ℤ :=
  match highestStored stored with
  | some m => m + 1
  | none => -1 + 1

/-- The chain position update performed by Storage.getBlockCount:
this.index = result - 1 and this.blockHeight = result. -/
def applyBlockCount (s : ChainState) (stored : List ℤ) : ChainState :=
  { s with index := getBlockCountModel stored - 1,
           blockHeight := getBlockCountModel stored }

lemma highestStored_spec : ∀ l : List ℤ, l ≠ [] →
    ∃ m, highestStored l = some m ∧ m ∈ l ∧ ∀ x ∈ l, x ≤ m := by
  intro l
  induction l with
  | nil => intro h; exact absurd rfl h
  | cons i rest ih =>
    intro _
    by_cases hr : rest = []
    · subst hr
      exact ⟨i, rfl, List.mem_singleton.2 rfl, by
        intro x hx
        rcases List.mem_singleton.1 hx with rfl
        exact le_refl x⟩
    · obtain ⟨m, hm, hmem, hub⟩ := ih hr
      refine ⟨max i m, ?_, ?_, ?_⟩
      · rw [highestStored, hm]
      · rcases le_total i m with h | h
        · rw [max_eq_right h]
          exact List.mem_cons_of_mem i hmem
        · rw [max_eq_left h]
          exact List.mem_cons_self i rest
      · intro x hx
        rcases List.mem_cons.1 hx with rfl | hx'
        · exact le_max_left _ _
        · exact le_trans (hub x hx') (le_max_right _ _)

/-- Counterexample to claim C9: with stored block indices 0 and 2 (a gap at
1), getBlockCount returns 3, not the count of stored blocks, which is 2. -/
theorem claim_C9_counterexample :
    getBlockCountModel [0, 2] = 3 ∧ ([0, 2] : List ℤ).length = 2 ∧
    getBlockCountModel [0, 2] ≠ ((([0, 2] : List ℤ).length : ℕ) : ℤ) := by
  decide

/-- Claim C9 amended: getBlockCount returns one plus the highest stored block
index (0 when nothing is stored), which equals the stored-block count
exactly when the stored indices are the contiguous range 0..n-1; startup
initializes index to the returned value minus one and blockHeight to the
returned value. -/
theorem claim_C9_amended :
    (getBlockCountModel [] = 0) ∧
    (∀ stored : List ℤ, stored ≠ [] →
      ∃ m, m ∈ stored ∧ (∀ x ∈ stored, x ≤ m) ∧ getBlockCountModel stored = m + 1) ∧
    (∀ (stored : List ℤ) (n : ℤ), stored.Nodup →
      (∀ i : ℤ, i ∈ stored ↔ 0 ≤ i ∧ i < n) →
      getBlockCountModel stored = ((stored.length : ℕ) : ℤ)) ∧
    (∀ (s : ChainState) (stored : List ℤ),
      (applyBlockCount s stored).index = getBlockCountModel stored - 1 ∧
      (applyBlockCount s stored).blockHeight = getBlockCountModel stored) := by
  refine ⟨by decide, ?_, ?_, fun s stored => ⟨rfl, rfl⟩⟩
  · intro stored hne
    obtain ⟨m, hm, hmem, hub⟩ := highestStored_spec stored hne
    refine ⟨m, hmem, hub, ?_⟩
    rw [getBlockCountModel, hm]
  · intro stored n hnd hiff
    by_cases hn : n ≤ 0
    · have hnil : stored = [] := by
        rw [List.eq_nil_iff_forall_not_mem]
        intro x hx
        have := (hiff x).1 hx
        omega
      rw [hnil]
      decide
    · have hne : stored ≠ [] := by
        intro h
        have : (0 : ℤ) ∈ stored := (hiff 0).2 ⟨le_refl 0, by omega⟩
        rw [h] at this
        exact List.not_mem_nil _ this
      obtain ⟨m, hm, hmem, hub⟩ := highestStored_spec stored hne
      have hm1 := (hiff m).1 hmem
      have hn1 : (n - 1 : ℤ) ∈ stored := (hiff (n - 1)).2 ⟨by omega, by omega⟩
      have hmn : m = n - 1 := by
        have := hub _ hn1
        omega
      have hlen : stored.length = n.toNat := by
        have hcard : stored.toFinset.card = stored.length := List.toFinset_card_of_nodup hnd
        have hset : stored.toFinset = Finset.Ico (0 : ℤ) n := by
          ext z
          rw [List.mem_toFinset, Finset.mem_Ico]
          exact hiff z
        rw [hset, Int.card_Ico] at hcard
        omega
      simp only [getBlockCountModel, hm]
      rw [hlen]
      omega

/-- Witness for claim C9 amended: over stored indices 0 and 2 the returned
value is the greatest index plus one, and over the contiguous indices
0, 1, 2 it coincides with the stored-block count. -/
theorem claim_C9_witness :
    (∃ m, m ∈ ([0, 2] : List ℤ) ∧ (∀ x ∈ ([0, 2] : List ℤ), x ≤ m) ∧
      getBlockCountModel [0, 2] = m + 1) ∧
    getBlockCountModel [0, 1, 2] = ((([0, 1, 2] : List ℤ).length : ℕ) : ℤ) :=
  ⟨claim_C9_amended.2.1 [0, 2] (by decide),
   claim_C9_amended.2.2.1 [0, 1, 2] 3 (by decide) (by
     intro i
     simp only [List.mem_cons, List.not_mem_nil, or_false]
     omega)⟩

/-! ## Transaction expander (storage.js getExpandedTX, lines 299-333)

getExpandedTX fetches the transaction (a fetch failure or a null result
rejects), resolves immediately with the stored transaction when some vin
entry already carries an asset field, and otherwise fetches every
transaction named by lodash map(tx.vin, "txid"), replaces each vin entry by
the vout record it spends, writes the transaction back (a write-back
failure is swallowed) and resolves with it.  The catch handler of the
Promise.all only logs, so a failed reference fetch, or a throw inside the
expanding map, leaves the promise unsettled forever. -/

/-- Store backing getTX and updateTransaction: the stored transactions, an
injected read failure per txid, and whether updateTransaction succeeds. -/
structure Store where
  txs : List Tx
  fetchErr : String → Option StorageErr
  updateOk : Bool

/-- dataAccess.getTX(txid): an injected failure rejects; otherwise the first
stored transaction with that txid, or none. -/
def storeGetTX (st : Store) (txid : String) : Except StorageErr (Option Tx) :=
  match st.fetchErr txid with
  | some e => .error e
  | none => .ok (st.txs.find? (fun t => t.txid == txid))

/-- getTX applied to an element of lodash map(tx.vin, "txid"): an absent txid
(JS undefined, produced by an entry that is not a raw reference) matches no
stored document because txid is a required unique field of the transaction
schema, so the query resolves null. -/
def storeGetTXOpt (st : Store) (otxid : Option String) : Except StorageErr (Option Tx) :=
  match otxid with
  | some id => storeGetTX st id
  | none => .ok none

/-- dataAccess.updateTransaction(tx): replace the stored documents matched by
txid. -/
def storeUpdateTx (st : Store) (tx : Tx) : Store :=
  { st with txs := st.txs.map (fun t => if t.txid == tx.txid then tx else t) }

/-- Settlement of the Promise.all over the reference fetches: any rejection
rejects the aggregate, otherwise the list of fetched documents resolves. -/
def sequenceFetches : List (Except StorageErr (Option Tx)) →
    Except StorageErr (List (Option Tx))
  | [] => .ok []
  | .error e :: _ => .error e
  | .ok r :: rest =>
    match sequenceFetches rest with
    | .ok rs => .ok (r :: rs)
    | .error e => .error e

/-- One step of the expanding map (r, i) => r.vout[tx.vin[i].vout]: an
in-range lookup on a raw reference copies the vout record over the entry;
an out-of-range lookup, or an entry without a vout position, yields JS
undefined. -/
def resolveVinEntry (r : Tx) (v : VinEntry) : VinEntry :=
  match v with
  | .ref _ i =>
    match r.vout.get? i with
    | some o => .expanded o
    | none => .undefined
  | _ => .undefined

/-- Unfolding of the expanding-map step on a raw reference. -/
lemma resolveVinEntry_ref (r : Tx) (t : String) (i : Nat) :
    resolveVinEntry r (.ref t i) = match r.vout.get? i with
      | some o => .expanded o
      | none => .undefined := rfl

/-- The expanding map over the fetched documents: a null document makes the
callback throw (none); running past the vin list dereferences undefined and
also throws. -/
def expandVins : List (Option Tx) → List VinEntry → Option (List VinEntry)
  | [], _ => some []
  | none :: _, _ => none
  | some _ :: _, [] => none
  | some r :: rs, v :: vs =>
    match expandVins rs vs with
    | some rest => some (resolveVinEntry r v :: rest)
    | none => none

/-- Continuation of getExpandedTX after the transaction is in hand: fetch all
referenced transactions (a rejection is only logged, leaving the promise
unsettled), rebuild vin (a throw in the map is only logged as well), write
the transaction back (failure swallowed) and resolve with it. -/
def expandCont (st : Store) (tx : Tx) : POutcome Tx × Store :=
  match sequenceFetches (tx.vin.map (fun v => storeGetTXOpt st (vinTxid v))) with
  | .error _ => (.pending, st)
  | .ok rs =>
    match expandVins rs tx.vin with
    | none => (.pending, st)
    | some newVin =>
      let tx2 : Tx := { tx with vin := newVin }
      if st.updateOk then (.resolved tx2, storeUpdateTx st tx2)
      else (.resolved tx2, st)

/-- getExpandedTX(txid): the settlement of the returned promise together with
the store after the side effects of the call.  When some vin entry already
carries an asset field the promise resolves immediately with the stored
transaction while the continuation still runs for its store effects. -/
def getExpandedTX (st : Store) (txid : String) : POutcome Tx × Store :=
  match storeGetTX st txid with
  | .error e => (.rejected e, st)
  | .ok none => (.rejected .notFound, st)
  | .ok (some tx) =>
    if tx.vin.any vinHasAsset then (.resolved tx, (expandCont st tx).2)
    else expandCont st tx

lemma storeGetTX_ok {st : Store} {txid : String} {tx : Tx}
    (h : storeGetTX st txid = .ok (some tx)) :
    st.fetchErr txid = none ∧ st.txs.find? (fun t => t.txid == txid) = some tx := by
  cases hf : st.fetchErr txid with
  | some e =>
    simp only [storeGetTX, hf] at h
    exact Except.noConfusion h
  | none =>
    simp only [storeGetTX, hf, Except.ok.injEq] at h
    exact ⟨rfl, h⟩

lemma findTxidEq {l : List Tx} {id : String} {tx : Tx}
    (h : l.find? (fun t => t.txid == id) = some tx) : tx.txid = id := by
  have := List.find?_some h
  simpa using this

lemma findUpdate {l : List Tx} {id : String} {tx : Tx} (tx2 : Tx)
    (hf : l.find? (fun t => t.txid == id) = some tx) (hid : tx2.txid = id) :
    (l.map (fun t => if t.txid == tx2.txid then tx2 else t)).find?
      (fun t => t.txid == id) = some tx2 := by
  induction l with
  | nil => simp at hf
  | cons h l ih =>
    by_cases hh : h.txid = id
    · have hcond : (h.txid == tx2.txid) = true := by
        rw [hid, hh]
        exact beq_self_eq_true id
      rw [List.map_cons, if_pos hcond]
      apply List.find?_cons_of_pos
      rw [hid]
      exact beq_self_eq_true id
    · have hf' : l.find? (fun t => t.txid == id) = some tx := by
        rwa [List.find?_cons_of_neg _ (by simpa using hh)] at hf
      have hcond : ¬ (h.txid == tx2.txid) = true := by
        rw [hid]
        simpa using hh
      rw [List.map_cons, if_neg hcond]
      rw [List.find?_cons_of_neg _ (by simpa using hh)]
      exact ih hf'

lemma sequenceFetches_cons_ok {x : Except StorageErr (Option Tx)}
    {rest : List (Except StorageErr (Option Tx))} {rs : List (Option Tx)}
    (h : sequenceFetches (x :: rest) = .ok rs) :
    ∃ r rs', x = .ok r ∧ sequenceFetches rest = .ok rs' ∧ rs = r :: rs' := by
  cases x with
  | error e => simp [sequenceFetches] at h
  | ok r =>
    cases hrest : sequenceFetches rest with
    | error e =>
      simp only [sequenceFetches, hrest] at h
      exact Except.noConfusion h
    | ok rs' =>
      simp only [sequenceFetches, hrest, Except.ok.injEq] at h
      exact ⟨r, rs', rfl, rfl, h.symm⟩

lemma expandVins_progress (st : Store) :
    ∀ (vs : List VinEntry) (rs : List (Option Tx)) (nv : List VinEntry),
    sequenceFetches (vs.map (fun v => storeGetTXOpt st (vinTxid v))) = .ok rs →
    expandVins rs vs = some nv →
    (∀ v ∈ vs, vinHasAsset v = false) ∧
    (∀ w ∈ nv, vinHasAsset w = true ∨ w = .undefined) := by
  intro vs
  induction vs with
  | nil =>
    intro rs nv hseq hexp
    simp only [List.map_nil, sequenceFetches, Except.ok.injEq] at hseq
    rw [← hseq] at hexp
    simp only [expandVins, Option.some.injEq] at hexp
    rw [← hexp]
    exact ⟨by simp, by simp⟩
  | cons v vs ih =>
    intro rs nv hseq hexp
    rw [List.map_cons] at hseq
    obtain ⟨r, rs', hx, hrest, hrs⟩ := sequenceFetches_cons_ok hseq
    subst hrs
    cases r with
    | none => simp [expandVins] at hexp
    | some rtx =>
      cases hrec : expandVins rs' vs with
      | none =>
        simp only [expandVins, hrec] at hexp
        exact Option.noConfusion hexp
      | some rest' =>
        simp only [expandVins, hrec, Option.some.injEq] at hexp
        have hvref : ∃ t i, v = VinEntry.ref t i := by
          cases hv : vinTxid v with
          | none =>
            rw [hv] at hx
            simp [storeGetTXOpt] at hx
          | some t =>
            cases v with
            | ref a b => exact ⟨a, b, rfl⟩
            | expanded o => simp [vinTxid] at hv
            | undefined => simp [vinTxid] at hv
        obtain ⟨t, i, rfl⟩ := hvref
        obtain ⟨ih1, ih2⟩ := ih rs' rest' hrest hrec
        constructor
        · intro w hw
          rcases List.mem_cons.1 hw with heq | hw'
          · rw [heq]
            rfl
          · exact ih1 w hw'
        · intro w hw
          rw [← hexp] at hw
          rcases List.mem_cons.1 hw with heq | hw'
          · rw [heq, resolveVinEntry_ref]
            cases hg : rtx.vout.get? i with
            | some o =>
              left
              rfl
            | none =>
              right
              rfl
          · exact ih2 w hw'

lemma expandCont_store_of_any {st : Store} {tx : Tx}
    (hany : tx.vin.any vinHasAsset = true) : (expandCont st tx).2 = st := by
  rcases List.any_eq_true.1 hany with ⟨v, hv, hvtrue⟩
  cases hseq : sequenceFetches (tx.vin.map (fun v => storeGetTXOpt st (vinTxid v))) with
  | error e => simp [expandCont, hseq]
  | ok rs =>
    cases hexp : expandVins rs tx.vin with
    | none => simp [expandCont, hseq, hexp]
    | some nv =>
      exfalso
      have := (expandVins_progress st tx.vin rs nv hseq hexp).1 v hv
      rw [hvtrue] at this
      exact Bool.noConfusion this

/-- Transaction with a single out-of-range spend reference: entry 5 of a
transaction with one output. -/
def txA : Tx := ⟨"a", [.ref "b" 5], []⟩

/-- Referenced transaction with a single output. -/
def txB : Tx := ⟨"b", [], [⟨"addrB", "gas", 7⟩]⟩

/-- Store for the claim C3 counterexample: both transactions present, no read
failures, write-backs succeed. -/
def storeC3 : Store := ⟨[txA, txB], fun _ => none, true⟩

/-- Result of expanding txA: the out-of-range lookup leaves a JS undefined
entry in vin. -/
def txAExp : Tx := ⟨"a", [.undefined], []⟩

/-- Counterexample to claim C3 as stated: expanding transaction a succeeds
and resolves with an undefined vin entry (the reference was out of range),
the expanded transaction is written back, and expanding a second time never
settles instead of returning the same transaction. -/
theorem claim_C3_counterexample :
    (getExpandedTX storeC3 "a").1 = POutcome.resolved txAExp ∧
    (getExpandedTX (getExpandedTX storeC3 "a").2 "a").1 = POutcome.pending ∧
    (POutcome.pending : POutcome Tx) ≠ POutcome.resolved txAExp := by
  refine ⟨by decide, by decide, by decide⟩

/-- Claim C3 amended: a stored transaction whose vin entries all already
carry an asset field is returned unchanged; and whenever an expand call
resolves with a transaction none of whose vin entries is the JS undefined
produced by an out-of-range reference, a second expand call resolves with
that same transaction. -/
theorem claim_C3_amended :
    (∀ (st : Store) (txid : String) (tx : Tx),
      storeGetTX st txid = .ok (some tx) →
      (∀ v ∈ tx.vin, vinHasAsset v = true) →
      (getExpandedTX st txid).1 = POutcome.resolved tx) ∧
    (∀ (st : Store) (txid : String) (t1 : Tx),
      (getExpandedTX st txid).1 = POutcome.resolved t1 →
      (∀ v ∈ t1.vin, v ≠ VinEntry.undefined) →
      (getExpandedTX (getExpandedTX st txid).2 txid).1 = POutcome.resolved t1) := by
  constructor
  · intro st txid tx hg hall
    obtain ⟨tid, tvin, tvout⟩ := tx
    cases tvin with
    | nil =>
      simp only [getExpandedTX, hg]
      simp only [List.any_nil, Bool.false_eq_true, if_false]
      simp [expandCont, sequenceFetches, expandVins]
      by_cases hu : st.updateOk = true <;> simp [hu]
    | cons v vs =>
      have hv : vinHasAsset v = true := hall v (List.mem_cons_self v vs)
      have hany : (v :: vs).any vinHasAsset = true :=
        List.any_eq_true.2 ⟨v, List.mem_cons_self v vs, hv⟩
      simp only [getExpandedTX, hg, hany, if_true]
  · intro st txid t1 hres hnd
    have hres0 := hres
    cases hg : storeGetTX st txid with
    | error e =>
      simp only [getExpandedTX, hg] at hres
      exact POutcome.noConfusion hres
    | ok o =>
      cases o with
      | none =>
        simp only [getExpandedTX, hg] at hres
        exact POutcome.noConfusion hres
      | some tx =>
        obtain ⟨hfe, hfind⟩ := storeGetTX_ok hg
        have htxid : tx.txid = txid := findTxidEq hfind
        by_cases hany : tx.vin.any vinHasAsset = true
        · have hst2 : (getExpandedTX st txid).2 = st := by
            simp only [getExpandedTX, hg, hany, if_true]
            exact expandCont_store_of_any hany
          rw [hst2]
          exact hres0
        · have hbranch : getExpandedTX st txid = expandCont st tx := by
            simp only [getExpandedTX, hg]
            rw [if_neg hany]
          rw [hbranch] at hres
          cases hseq : sequenceFetches (tx.vin.map (fun v => storeGetTXOpt st (vinTxid v))) with
          | error e =>
            simp only [expandCont, hseq] at hres
            exact POutcome.noConfusion hres
          | ok rs =>
            cases hexp : expandVins rs tx.vin with
            | none =>
              simp only [expandCont, hseq, hexp] at hres
              exact POutcome.noConfusion hres
            | some nv =>
              simp only [expandCont, hseq, hexp] at hres
              by_cases hu : st.updateOk = true
              · simp only [hu, if_true] at hres
                have ht1 : t1 = { tx with vin := nv } := by
                  injection hres with h
                  exact h.symm
                have hprog := (expandVins_progress st tx.vin rs nv hseq hexp).2
                have hst2 : (getExpandedTX st txid).2
                    = storeUpdateTx st { tx with vin := nv } := by
                  rw [hbranch]
                  simp only [expandCont, hseq, hexp, hu, if_true]
                have hg2 : storeGetTX (storeUpdateTx st { tx with vin := nv }) txid
                    = .ok (some { tx with vin := nv }) := by
                  have hid2 : ({ tx with vin := nv } : Tx).txid = txid := htxid
                  have hfind2 := findUpdate ({ tx with vin := nv }) hfind hid2
                  simp only [storeGetTX, storeUpdateTx, hfe, hfind2]
                rw [hst2, ht1]
                obtain ⟨tid, tvin, tvout⟩ := tx
                dsimp only at hg2 ⊢
                cases hnv : nv with
                | nil =>
                  subst hnv
                  simp only [getExpandedTX, hg2]
                  dsimp only
                  simp only [List.any_nil, Bool.false_eq_true, if_false]
                  simp [expandCont, sequenceFetches, expandVins, storeUpdateTx, hu]
                | cons w nv' =>
                  subst hnv
                  have hwm : w ∈ w :: nv' := List.mem_cons_self w nv'
                  have hwa : vinHasAsset w = true := by
                    rcases hprog w hwm with h | h
                    · exact h
                    · exfalso
                      refine hnd w ?_ h
                      rw [ht1]
                      exact hwm
                  simp only [getExpandedTX, hg2]
                  dsimp only
                  rw [if_pos (List.any_eq_true.2 ⟨w, hwm, hwa⟩)]
              · have hst2 : (getExpandedTX st txid).2 = st := by
                  rw [hbranch]
                  simp only [expandCont, hseq, hexp]
                  rw [if_neg hu]
                rw [hst2]
                exact hres0

/-- Already-expanded transaction used by the claim C3 witness. -/
def txD : Tx := ⟨"d", [.expanded ⟨"addrX", "gas", 1⟩], []⟩

/-- Store for the claim C3 witness. -/
def storeC3W : Store := ⟨[txD], fun _ => none, true⟩

/-- Witness for claim C3 amended: a stored transaction whose only vin entry
already carries an asset field is returned unchanged, and re-expanding
resolves with the same transaction. -/
theorem claim_C3_witness :
    storeGetTX storeC3W "d" = .ok (some txD) ∧
    (∀ v ∈ txD.vin, vinHasAsset v = true) ∧
    (getExpandedTX storeC3W "d").1 = POutcome.resolved txD ∧
    (getExpandedTX (getExpandedTX storeC3W "d").2 "d").1 = POutcome.resolved txD :=
  ⟨rfl, by decide,
    claim_C3_amended.1 storeC3W "d" txD rfl (by decide),
    claim_C3_amended.2 storeC3W "d" txD (by decide) (by decide)⟩

/-- Transaction with one in-range spend reference, used for the C4 inputs. -/
def txC4 : Tx := ⟨"a", [.ref "b" 0], []⟩

/-- Store where fetching the referenced transaction b fails. -/
def storeC4 : Store :=
  ⟨[txC4], fun id => if id == "b" then some (.dbFailure 7) else none, true⟩

/-- Transaction and store for the write-back half of claim C4: the reference
resolves but updateTransaction fails. -/
def txC4c : Tx := ⟨"c", [.ref "b" 0], []⟩

/-- Referenced transaction with one output, for the write-back half. -/
def txC4b : Tx := ⟨"b", [], [⟨"addrB", "gas", 7⟩]⟩

/-- Store whose write-backs fail but whose reads succeed. -/
def storeC4b : Store := ⟨[txC4c, txC4b], fun _ => none, false⟩

/-- Claim C4 evaluated on the code: when fetching a transaction referenced by
a vin entry fails, the catch handler only logs, so the expand call neither
resolves nor rejects (the promise stays pending forever) instead of
surfacing the error; by contrast a write-back failure is indeed swallowed
and the expanded transaction is still resolved. -/
theorem claim_C4_eval :
    (getExpandedTX storeC4 "a").1 = POutcome.pending ∧
    (getExpandedTX storeC4b "c").1
      = POutcome.resolved ⟨"c", [.expanded ⟨"addrB", "gas", 7⟩], []⟩ := by
  refine ⟨by decide, by decide⟩

end Neo
